import Mathlib

/-!
# Verification of the JSON flatten / SQL query / unflatten service

This file gives a shallow embedding of the core of `src/main.py` of the
`query-json-sql` repository: the structure validator, the name sanitizer,
the flattener (pandas `json_normalize`, modelled from the spec since pandas
is an external library), the column-mapping construction, the unflattener
(`unflatten_data`), and the two endpoint operations
(`get_flattened_table_columns`, `query_json`) with their error handling.
-/

set_option autoImplicit false

mutual
/-- JSON values as received by the service (`Dict[str, Any]` trees).
Arrays are representable because the validator's job is to reject them. -/
inductive JVal where
  | null : JVal
  | bool : Bool → JVal
  | int : Int → JVal
  | str : String → JVal
  | arr : JArr → JVal
  | obj : JObj → JVal
inductive JArr where
  | nil : JArr
  | cons : JVal → JArr → JArr
inductive JObj where
  | nil : JObj
  | cons : String → JVal → JObj → JObj
end

/-- Build a `JObj` (a Python dict, keys in insertion order) from a list of pairs. -/
def jobjOf : List (String × JVal) → JObj
  | [] => .nil
  | (k, v) :: rest => .cons k v (jobjOf rest)

/-- The keys of a Python dict, in insertion order. -/
def objKeys : JObj → List String
  | .nil => []
  | .cons k _ rest => k :: objKeys rest

/-- `d[k]` / `k in d` on a Python dict: first (unique) matching key. -/
def dictGet : JObj → String → Option JVal
  | .nil, _ => none
  | .cons k v rest, key => if k = key then some v else dictGet rest key

/-- `d[k] = v` on a Python dict: overwrite in place if the key exists
(keeping its insertion position), otherwise append at the end. -/
def dictSet : JObj → String → JVal → JObj
  | .nil, k, v => .cons k v .nil
  | .cons k' v' rest, k, v =>
    if k' = k then .cons k' v rest else .cons k' v' (dictSet rest k v)

/-- Lookup in a Python dict built by `dict(zip(keys, vals))` represented as the
raw pair list: a later pair with the same key overwrites an earlier one, so the
last match wins. -/
def pyGet {α : Type} : List (String × α) → String → Option α
  | [], _ => none
  | (k, v) :: rest, key =>
    match pyGet rest key with
    | some r => some r
    | none => if k = key then some v else none

/-- Character-level core of the name sanitizer of `src/main.py` (lines 146-149
and 194-197): `col.replace(".", "_").replace("[", "").replace("]", "")`.
Since the three patterns are single characters and `_` is neither `[` nor `]`,
the three sequential passes are a map followed by two filters. -/
def sanChars (l : List Char) : List Char :=
  ((l.map (fun c => if c = '.' then '_' else c)).filter (fun c => c != '[')).filter
    (fun c => c != ']')

/-- The name sanitizer: dotted path to SQL-friendly column identifier. -/
def sanitize (s : String) : String :=
  String.mk (sanChars s.data)

/-- Character-level splitting on `'.'`, with Python `str.split(".")` semantics:
the empty string yields `[""]`, separators at the ends yield empty segments. -/
def splitChars : List Char → List (List Char)
  | [] => [[]]
  | c :: cs =>
    if c = '.' then [] :: splitChars cs
    else
      match splitChars cs with
      | h :: t => (c :: h) :: t
      | [] => [[c]]

/-- `original_key.split(".")` of `src/main.py` line 52. -/
def splitDots (s : String) : List String :=
  (splitChars s.data).map String.mk

/-- Join path segments with `'.'` — the rendering of a `Path` as a dotted string. -/
def joinSegs : List String → String
  | [] => ""
  | [s] => s
  | s :: rest => s ++ "." ++ joinSegs rest

/-- `True` iff the string contains no `'.'` character. -/
def noDotStr (s : String) : Bool :=
  !(s.data.contains '.')

/-- `not request.sql.strip()` of `src/main.py` line 181: the SQL string is
empty or consists only of whitespace. -/
def isBlankSql (s : String) : Bool :=
  s.data.all Char.isWhitespace

/-- `pre` is a prefix of `s`, at the character level. -/
def startsWithStr (pre s : String) : Bool :=
  pre.data.isPrefixOf s.data

/-- Segment-wise prefix test on paths. -/
def segPre : List String → List String → Bool
  | [], _ => true
  | _ :: _, [] => false
  | a :: as, b :: bs => a == b && segPre as bs

/-- Two segment paths are incomparable: neither is a (weak) prefix of the other. -/
def incompB (a b : List String) : Bool :=
  !segPre a b && !segPre b a

/-- No path in the list is a strict proper segment-wise prefix of another
(equal paths are allowed). -/
def prefixFreeB (l : List (List String)) : Bool :=
  l.all (fun p => l.all (fun q => !(segPre p q && p != q)))

/-- All paths in the list are pairwise incomparable (in particular distinct). -/
def pairwiseIncompB : List (List String) → Bool
  | [] => true
  | a :: rest => rest.all (incompB a) && pairwiseIncompB rest

/-- No duplicates, as a boolean. -/
def nodupB : List String → Bool
  | [] => true
  | x :: xs => !xs.contains x && nodupB xs

def dedupFirstGo : List String → List String → List String
  | _, [] => []
  | seen, x :: xs =>
    if seen.contains x then dedupFirstGo seen xs
    else x :: dedupFirstGo (x :: seen) xs

/-- Keep the first occurrence of each string, preserving order. -/
def dedupFirst (l : List String) : List String :=
  dedupFirstGo [] l

/-- The error detail of `validate_no_arrays` (`src/main.py` lines 82-86). -/
def arrayDetail (path : String) : String :=
  "Arrays are not supported. Found array at '" ++ path ++
    "'. Please use object nesting only (no arrays of objects)."

mutual
/-- `validate_no_arrays` of `src/main.py` lines 69-91: recursive descent that
fails on the first list value, threading the dotted path for the message. -/
def validate_no_arrays : JVal → String → Except String Unit
  | .arr _, path => .error (arrayDetail path)
  | .obj fields, path => validateNoArraysFields fields path
  | _, _ => .ok ()
def validateNoArraysFields : JObj → String → Except String Unit
  | .nil, _ => .ok ()
  | .cons key value rest, path =>
    match validate_no_arrays value (if path = "root" then key else path ++ "." ++ key) with
    | .error e => .error e
    | .ok _ => validateNoArraysFields rest path
end

def validateItemsFrom : Nat → List JObj → Except String Unit
  | _, [] => .ok ()
  | i, item :: rest =>
    match validate_no_arrays (.obj item) ("data[" ++ toString i ++ "]") with
    | .error e => .error e
    | .ok _ => validateItemsFrom (i + 1) rest

/-- `validate_data_structure` of `src/main.py` lines 94-113. The two
`isinstance` guards are statically satisfied here because the pydantic models
already force `data : List[Dict[str, Any]]`, so only the per-item
`validate_no_arrays(item, f"data[{i}]")` calls remain. -/
def validate_data_structure (data : List JObj) : Except String Unit :=
  validateItemsFrom 0 data

mutual
/-- Modelled from the spec: the leaves of one record as (segment path, value)
pairs, in depth-first key order. This is the Flattener of spec section 4.2
(`pd.json_normalize` in the source, an external library): at each nested
record descend prefixing the child key; at each non-object leaf emit the pair.
A list value (never present after validation) is left as a leaf cell, as
`json_normalize` leaves it. -/
def segLeavesVal : JVal → List (List String × JVal)
  | .obj fs => segLeavesObj fs
  | v => [([], v)]
/-- Modelled from the spec: leaves of a record's field list (see `segLeavesVal`). -/
def segLeavesObj : JObj → List (List String × JVal)
  | .nil => []
  | .cons k v rest =>
    (segLeavesVal v).map (fun e => (k :: e.1, e.2)) ++ segLeavesObj rest
end

/-- Modelled from the spec: one record's flat row as produced by
`pd.json_normalize`, with each leaf keyed by its dotted `Path`. -/
def flattenRecord (r : JObj) : List (String × JVal) :=
  (segLeavesObj r).map (fun e => (joinSegs e.1, e.2))

/-- Modelled from the spec: the union of the dotted paths across the batch in
first-appearance order — the column list of the `json_normalize` data frame. -/
def unionColumns (data : List JObj) : List String :=
  dedupFirst ((data.map (fun r => (flattenRecord r).map Prod.fst)).flatten)

/-- Modelled from the spec: the table row of one record, rectangular over the
batch columns — the value of the record at each path, null where the path is
absent (NaN in the data frame, NULL in the table), keyed by the sanitized
column identifier the data frame is renamed to in `src/main.py` lines 194-197. -/
def rowOfRecord (cols : List String) (r : JObj) : List (String × JVal) :=
  cols.map (fun p => (sanitize p, ((flattenRecord r).lookup p).getD .null))

/-- The nested-structure walk of `unflatten_data` (`src/main.py` lines 54-62):
descend along `parts[:-1]` creating empty dicts at missing keys, then assign
the value at the last segment. Reaching a non-dict value at an intermediate
segment raises a `TypeError` in Python (`part not in current` /
`current[part]` on a primitive), modelled as `none`. An empty segment list
(impossible for the output of `split`) would raise an `IndexError`, also
modelled as `none`. -/
def setPathGo : JObj → String → List String → JVal → Option JObj
  | r, last, [], v => some (dictSet r last v)
  | r, part, next :: rest, v =>
    match dictGet r part with
    | none =>
      match setPathGo .nil next rest v with
      | some sub => some (dictSet r part (.obj sub))
      | none => none
    | some (.obj sub) =>
      match setPathGo sub next rest v with
      | some sub' => some (dictSet r part (.obj sub'))
      | none => none
    | some _ => none

def setPath (r : JObj) (parts : List String) (v : JVal) : Option JObj :=
  match parts with
  | [] => none
  | p :: rest => setPathGo r p rest v

/-- The inner loop of `unflatten_data` (`src/main.py` lines 47-62): for each
`(flattened_key, value)` of the row, resolve the original key through the
column mapping (falling back to the key itself), split it on dots and assign
the value into the nested structure. -/
def unflattenRowGo (mapping : List (String × String)) :
    JObj → List (String × JVal) → Option JObj
  | nested, [] => some nested
  | nested, (k, v) :: rest =>
    match setPath nested (splitDots ((pyGet mapping k).getD k)) v with
    | some nested' => unflattenRowGo mapping nested' rest
    | none => none

def unflattenRows (mapping : List (String × String)) :
    List (List (String × JVal)) → Option (List JObj)
  | [] => some []
  | row :: rest =>
    match unflattenRowGo mapping .nil row with
    | none => none
    | some r =>
      match unflattenRows mapping rest with
      | none => none
      | some rs => some (r :: rs)

/-- `unflatten_data` of `src/main.py` lines 29-66: convert flattened rows back
to nested structure using the column mapping; a `none` models the uncaught
`TypeError` the walk can raise. -/
def unflatten_data (flattened_rows : List (List (String × JVal)))
    (column_mapping : List (String × String)) : Option (List JObj) :=
  unflattenRows column_mapping flattened_rows

mutual
/-- No list value anywhere in the tree. -/
def arrFreeVal : JVal → Bool
  | .arr _ => false
  | .obj fs => arrFreeObj fs
  | _ => true
/-- No list value anywhere below the fields. -/
def arrFreeObj : JObj → Bool
  | .nil => true
  | .cons _ v rest => arrFreeVal v && arrFreeObj rest
end

/-- Every item of the batch is free of list values. -/
def arrFreeBatch (data : List JObj) : Bool :=
  data.all arrFreeObj

mutual
/-- Well-formed as a Python value: every object has pairwise-distinct keys. -/
def wfVal : JVal → Bool
  | .obj fs => wfObj fs
  | .arr es => wfArr es
  | _ => true
def wfArr : JArr → Bool
  | .nil => true
  | .cons v rest => wfVal v && wfArr rest
def wfObj : JObj → Bool
  | .nil => true
  | .cons k v rest => !(objKeys rest).contains k && wfVal v && wfObj rest
end

/-- Every item of the batch is a well-formed dict tree. -/
def wfBatch (data : List JObj) : Bool :=
  data.all wfObj

mutual
/-- No key anywhere in the tree contains a `'.'` character. -/
def dotFreeVal : JVal → Bool
  | .obj fs => dotFreeObj fs
  | .arr es => dotFreeArr es
  | _ => true
def dotFreeArr : JArr → Bool
  | .nil => true
  | .cons v rest => dotFreeVal v && dotFreeArr rest
def dotFreeObj : JObj → Bool
  | .nil => true
  | .cons k v rest => noDotStr k && dotFreeVal v && dotFreeObj rest
end

/-- No key anywhere in the batch contains a `'.'` character. -/
def dotFreeBatch (data : List JObj) : Bool :=
  data.all dotFreeObj

def getAtPathGo : JObj → String → List String → Option JVal
  | r, k, [] => dictGet r k
  | r, k, next :: rest =>
    match dictGet r k with
    | some (.obj sub) => getAtPathGo sub next rest
    | _ => none

/-- Read the value stored at a segment path of a nested record: descend
through objects along the segments and return what sits at the last one. -/
def getAtPath (r : JObj) (q : List String) : Option JVal :=
  match q with
  | [] => none
  | k :: rest => getAtPathGo r k rest

def nonObjAtGo : JObj → String → List String → Bool
  | r, k, [] =>
    match dictGet r k with
    | some (.obj _) => false
    | some _ => true
    | none => false
  | r, k, next :: rest =>
    match dictGet r k with
    | some (.obj sub) => nonObjAtGo sub next rest
    | _ => false

/-- A non-object value sits exactly at this segment path (used to reason about
where the `unflatten_data` walk can crash). -/
def nonObjAt (r : JObj) (q : List String) : Bool :=
  match q with
  | [] => false
  | k :: rest => nonObjAtGo r k rest

/-- The segment path a flattened key resolves to in `unflatten_data`:
the mapping image when present, the key itself otherwise, split on dots. -/
def resolveKey (mapping : List (String × String)) (k : String) : List String :=
  splitDots ((pyGet mapping k).getD k)

/-- The resolved segment paths of one flat row, in iteration order. -/
def resolvedParts (mapping : List (String × String))
    (row : List (String × JVal)) : List (List String) :=
  row.map (fun e => resolveKey mapping e.1)

/-- An HTTP error response: `HTTPException(status_code, detail)`. -/
structure Err where
  status : Nat
  detail : String
deriving DecidableEq

/-- The exception kinds that can escape the `try` body of `query_json`
(`src/main.py` lines 177-218): an `HTTPException` raised by the input
validation, a `pd.errors.DatabaseError` raised by the query execution, or any
other unexpected exception (e.g. the `TypeError` the unflatten walk can hit). -/
inductive Exc where
  | http : Nat → String → Exc
  | dbError : String → Exc
  | unexpected : String → Exc

/-- The `except` clauses of `query_json` (`src/main.py` lines 220-228):
re-raise `HTTPException` as-is, wrap a `DatabaseError` as a 400 and anything
else as a 500. -/
def handleExc : Exc → Err
  | .http s d => ⟨s, d⟩
  | .dbError m => ⟨400, "SQL execution error: " ++ m⟩
  | .unexpected m => ⟨500, "Internal server error: " ++ m⟩

/-- The Query Executor collaborator: given the (sanitized) column names, the
table rows and the SQL string, produce result rows or fail. It abstracts
`sqlite3` + `pd.read_sql_query` of `src/main.py` lines 203-208. -/
def Executor : Type :=
  List String → List (List (String × JVal)) → String → Except String (List (List (String × JVal)))

/-- Modelled from the spec: the Query Executor on an identity projection
(`SELECT * FROM data`) returns the loaded table unchanged. -/
def identityExec : Executor :=
  fun _ rows _ => .ok rows

/-- A Query Executor that always fails, as `pd.read_sql_query` does on
malformed SQL or an unknown column. -/
def failExec (msg : String) : Executor :=
  fun _ _ _ => .error msg

/-- The result of `query_json`: flat rows when `flatten_columns` is true,
nested records otherwise. -/
inductive QueryResult where
  | flatRows : List (List (String × JVal)) → QueryResult
  | nestedRows : List JObj → QueryResult

/-- The body of the `try` block of `query_json` (`src/main.py` lines 177-218):
emptiness checks, structure validation, flatten, rename and build the column
mapping, run the query, and optionally unflatten. -/
def queryBody (data : List JObj) (sql : String) (flatten_columns : Bool)
    (exec : Executor) : Except Exc QueryResult :=
  if data.isEmpty then .error (.http 400 "Data cannot be empty")
  else if isBlankSql sql then .error (.http 400 "SQL query cannot be empty")
  else
    match validate_data_structure data with
    | .error d => .error (.http 400 d)
    | .ok _ =>
      let originalCols := unionColumns data
      let mapping := (originalCols.map sanitize).zip originalCols
      let rows := data.map (rowOfRecord originalCols)
      match exec (originalCols.map sanitize) rows sql with
      | .error m => .error (.dbError m)
      | .ok resultRows =>
        if flatten_columns then .ok (.flatRows resultRows)
        else
          match unflatten_data resultRows mapping with
          | some out => .ok (.nestedRows out)
          | none => .error (.unexpected "TypeError raised while rebuilding the nested structure")

/-- The `/query` endpoint `query_json` of `src/main.py` lines 175-228:
the try body with its exception handler. -/
def query_json (data : List JObj) (sql : String) (flatten_columns : Bool)
    (exec : Executor) : Except Err QueryResult :=
  (queryBody data sql flatten_columns exec).mapError handleExc

/-- The schema information returned by `/get-schema`. -/
structure SchemaInfo where
  columns : List String
  column_mapping : List (String × String)
deriving DecidableEq

/-- The `/get-schema` endpoint `get_flattened_table_columns` of `src/main.py`
lines 126-172: note that line 153 builds `dict(zip(original_columns,
cleaned_columns))`, i.e. the mapping goes from original dotted path to
sanitized identifier. -/
def get_flattened_table_columns (data : List JObj) : Except Err SchemaInfo :=
  if data.isEmpty then .error ⟨400, "Data cannot be empty"⟩
  else
    match validate_data_structure data with
    | .error d => .error ⟨400, d⟩
    | .ok _ =>
      let originalCols := unionColumns data
      .ok ⟨originalCols.map sanitize, originalCols.zip (originalCols.map sanitize)⟩

/-- The three error kinds of the spec's taxonomy, as the caller can tell them
apart from a response. -/
inductive ErrKind where
  | structuralKind : ErrKind
  | sqlExecKind : ErrKind
  | internalKind : ErrKind
deriving DecidableEq

/-- Classify a response the way a caller can: status 500 is internal, a 400
whose detail carries the `SQL execution error: ` prefix is a query-execution
failure, any other 400 is a structural validation failure. -/
def classifyErr (e : Err) : ErrKind :=
  if e.status = 500 then .internalKind
  else if startsWithStr "SQL execution error: " e.detail then .sqlExecKind
  else .structuralKind

/-- The two-record example batch used across the spec's scenarios:
`[{"user": {"name": "Ann", "age": 30}}, {"user": {"name": "Bo"}}]`. -/
def exBatch : List JObj :=
  [jobjOf [("user", .obj (jobjOf [("name", .str "Ann"), ("age", .int 30)]))],
   jobjOf [("user", .obj (jobjOf [("name", .str "Bo")]))]]

/-! ## Lemmas about the sanitizer -/

theorem sanChars_cons (c : Char) (l : List Char) :
    sanChars (c :: l) =
      if c = '.' then '_' :: sanChars l
      else if c = '[' then sanChars l
      else if c = ']' then sanChars l
      else c :: sanChars l := by
  by_cases h1 : c = '.'
  · subst h1; simp [sanChars]
  · by_cases h2 : c = '['
    · subst h2; simp [sanChars]
    · by_cases h3 : c = ']'
      · subst h3; simp [sanChars]
      · simp [sanChars, h1, h2, h3]

theorem sanChars_no_special (l : List Char) :
    ∀ c ∈ sanChars l, c ≠ '.' ∧ c ≠ '[' ∧ c ≠ ']' := by
  induction l with
  | nil => intro c hc; simp [sanChars] at hc
  | cons a l ih =>
    intro c hc
    rw [sanChars_cons] at hc
    by_cases h1 : a = '.'
    · simp [h1] at hc
      rcases hc with h | h
      · subst h; refine ⟨by decide, by decide, by decide⟩
      · exact ih c h
    · by_cases h2 : a = '['
      · simp [h1, h2] at hc
        exact ih c hc
      · by_cases h3 : a = ']'
        · simp [h1, h2, h3] at hc
          exact ih c hc
        · simp [h1, h2, h3] at hc
          rcases hc with h | h
          · subst h; exact ⟨h1, h2, h3⟩
          · exact ih c h

theorem sanChars_id_of_no_special (l : List Char)
    (h : ∀ c ∈ l, c ≠ '.' ∧ c ≠ '[' ∧ c ≠ ']') : sanChars l = l := by
  induction l with
  | nil => rfl
  | cons a l ih =>
    obtain ⟨h1, h2, h3⟩ := h a (List.mem_cons_self a l)
    rw [sanChars_cons, if_neg h1, if_neg h2, if_neg h3,
      ih (fun c hc => h c (List.mem_cons_of_mem a hc))]

theorem sanChars_idem (l : List Char) : sanChars (sanChars l) = sanChars l :=
  sanChars_id_of_no_special (sanChars l) (sanChars_no_special l)

/-- Claim C5: sanitization of a dotted path (replace every `.` with `_`,
delete every `[` and `]`, no other transform) is idempotent: for every string
`x`, `sanitize (sanitize x) = sanitize x`; applying it to an already-sanitized
string is a no-op. -/
theorem c5_sanitize_idempotent : ∀ x : String, sanitize (sanitize x) = sanitize x := by
  intro x
  show String.mk (sanChars (String.mk (sanChars x.data)).data) = String.mk (sanChars x.data)
  exact congrArg String.mk (sanChars_idem x.data)

/-! ## The scenario claims -/

/-- Claim C6: the empty batch is rejected by both operations with a 400
"Data cannot be empty" error, before any flattening or query execution
(the result does not depend on the executor). -/
theorem c6_empty_batch_rejected :
    get_flattened_table_columns [] = .error ⟨400, "Data cannot be empty"⟩ ∧
      ∀ exec : Executor, query_json [] "SELECT 1" false exec =
        .error ⟨400, "Data cannot be empty"⟩ :=
  ⟨rfl, fun _ => rfl⟩

/-- Claim C8 (implicit): a SQL string that is empty or only whitespace is
rejected with a 400 "SQL query cannot be empty" error for every nonempty
batch — even a structurally invalid one, i.e. before structural validation
runs, and independently of the executor. -/
theorem c8_blank_sql_rejected :
    ∀ (data : List JObj) (sql : String) (fc : Bool) (exec : Executor),
      data ≠ [] → isBlankSql sql = true →
      query_json data sql fc exec = .error ⟨400, "SQL query cannot be empty"⟩ := by
  intro data sql fc exec hd hb
  cases data with
  | nil => exact absurd rfl hd
  | cons a l =>
    simp [query_json, queryBody, hb, Except.mapError, handleExc]

/-- Witness for C8: a whitespace-only SQL string is rejected even though the
batch contains an array (so structural validation would also have failed). -/
theorem c8_blank_sql_rejected_witness :
    query_json [jobjOf [("a", .arr (.cons (.int 1) .nil))]] "   " false identityExec =
      .error ⟨400, "SQL query cannot be empty"⟩ :=
  c8_blank_sql_rejected _ _ _ _ (List.cons_ne_nil _ _) rfl

/-- Counterexample for claim C2: on the spec's two-record example, the
returned `column_mapping` has no key `"user_name"` at all; it is keyed by the
original dotted path (`"user.name"`), whose value is the sanitized
identifier — the reverse of the direction the claim states. -/
theorem c2_schema_mapping_counterexample :
    (get_flattened_table_columns exBatch).toOption.map
        (fun r => (pyGet r.column_mapping "user_name", pyGet r.column_mapping "user.name")) =
      some (none, some "user_name") := rfl

/-- Claim C2 (amended): for the two-record example, the schema operation
returns `columns = ["user_name", "user_age"]` and a `column_mapping` keyed by
the original dotted path with the sanitized identifier as value:
`{"user.name": "user_name", "user.age": "user_age"}`. -/
theorem c2_schema_mapping :
    get_flattened_table_columns exBatch =
      .ok ⟨["user_name", "user_age"],
           [("user.name", "user_name"), ("user.age", "user_age")]⟩ := rfl

/-! ## Lemmas about the validator -/

mutual
theorem validate_ok_of_arrFree : ∀ (v : JVal) (path : String),
    arrFreeVal v = true → validate_no_arrays v path = .ok ()
  | .null, _, _ => rfl
  | .bool _, _, _ => rfl
  | .int _, _, _ => rfl
  | .str _, _, _ => rfl
  | .arr _, _, h => by simp [arrFreeVal] at h
  | .obj fs, path, h => validateFields_ok_of_arrFree fs path h
theorem validateFields_ok_of_arrFree : ∀ (fs : JObj) (path : String),
    arrFreeObj fs = true → validateNoArraysFields fs path = .ok ()
  | .nil, _, _ => rfl
  | .cons k v rest, path, h => by
    have hv : arrFreeVal v = true := by
      have h' := h; simp [arrFreeObj] at h'; exact h'.1
    have hr : arrFreeObj rest = true := by
      have h' := h; simp [arrFreeObj] at h'; exact h'.2
    simp only [validateNoArraysFields, validate_ok_of_arrFree v _ hv,
      validateFields_ok_of_arrFree rest path hr]
end

mutual
theorem validate_err_of_arr : ∀ (v : JVal) (path : String),
    arrFreeVal v = false → ∃ p, validate_no_arrays v path = .error (arrayDetail p)
  | .arr _, path, _ => ⟨path, rfl⟩
  | .obj fs, path, h => validateFields_err_of_arr fs path h
  | .null, _, h => by simp [arrFreeVal] at h
  | .bool _, _, h => by simp [arrFreeVal] at h
  | .int _, _, h => by simp [arrFreeVal] at h
  | .str _, _, h => by simp [arrFreeVal] at h
theorem validateFields_err_of_arr : ∀ (fs : JObj) (path : String),
    arrFreeObj fs = false → ∃ p, validateNoArraysFields fs path = .error (arrayDetail p)
  | .nil, _, h => by simp [arrFreeObj] at h
  | .cons k v rest, path, h => by
    by_cases hv : arrFreeVal v = true
    · have hr : arrFreeObj rest = false := by
        simp [arrFreeObj, hv] at h; exact h
      obtain ⟨p, hp⟩ := validateFields_err_of_arr rest path hr
      exact ⟨p, by
        simp only [validateNoArraysFields, validate_ok_of_arrFree v _ hv, hp]⟩
    · have hv' : arrFreeVal v = false := by simpa using hv
      obtain ⟨p, hp⟩ :=
        validate_err_of_arr v (if path = "root" then k else path ++ "." ++ k) hv'
      exact ⟨p, by simp only [validateNoArraysFields, hp]⟩
end

theorem validateItems_ok : ∀ (i : Nat) (data : List JObj),
    arrFreeBatch data = true → validateItemsFrom i data = .ok () := by
  intro i data
  induction data generalizing i with
  | nil => intro _; rfl
  | cons item rest ih =>
    intro h
    have hitem : arrFreeObj item = true := by
      have h' := h; simp [arrFreeBatch] at h'; exact h'.1
    have hrest : arrFreeBatch rest = true := by
      have h' := h; simp [arrFreeBatch] at h'
      simp [arrFreeBatch]; exact h'.2
    have hval : validate_no_arrays (.obj item) ("data[" ++ toString i ++ "]") = .ok () :=
      validate_ok_of_arrFree (.obj item) _ hitem
    simp only [validateItemsFrom, hval]
    exact ih (i + 1) hrest

theorem validateItems_err : ∀ (i : Nat) (data : List JObj),
    arrFreeBatch data = false →
    ∃ p, validateItemsFrom i data = .error (arrayDetail p) := by
  intro i data
  induction data generalizing i with
  | nil => intro h; simp [arrFreeBatch] at h
  | cons item rest ih =>
    intro h
    by_cases hitem : arrFreeObj item = true
    · have hrest : arrFreeBatch rest = false := by
        have h' := h; simp [arrFreeBatch, hitem] at h'
        simp [arrFreeBatch]; exact h'
      obtain ⟨p, hp⟩ := ih (i + 1) hrest
      have hval : validate_no_arrays (.obj item) ("data[" ++ toString i ++ "]") = .ok () :=
        validate_ok_of_arrFree (.obj item) _ hitem
      exact ⟨p, by simp only [validateItemsFrom, hval, hp]⟩
    · have hitem' : arrFreeVal (.obj item) = false := by simpa [arrFreeVal] using hitem
      obtain ⟨p, hp⟩ := validate_err_of_arr (.obj item) ("data[" ++ toString i ++ "]") hitem'
      exact ⟨p, by simp only [validateItemsFrom, hp]⟩

theorem validate_err_detail : ∀ (data : List JObj) (d : String),
    validate_data_structure data = .error d → ∃ p, d = arrayDetail p := by
  intro data d h
  have h' : validateItemsFrom 0 data = .error d := h
  cases hb : arrFreeBatch data with
  | false =>
    obtain ⟨p, hp⟩ := validateItems_err 0 data hb
    rw [hp] at h'
    exact ⟨p, (Except.error.inj h').symm⟩
  | true =>
    rw [validateItems_ok 0 data hb] at h'
    exact absurd h' (by simp)

/-- Claim C4: every batch containing a list value anywhere fails structural
validation with the array error naming some offending dotted path; on
`[{"a": [1, 2]}]` the path is `data[0].a`, on `[{"a": {"b": [1]}}]` it is
`data[0].a.b`, and with several violations the first one (in batch and key
order) is the one reported. -/
theorem c4_validator_rejects_arrays :
    (∀ data : List JObj, arrFreeBatch data = false →
      ∃ p, validate_data_structure data = .error (arrayDetail p)) ∧
    validate_data_structure
        [jobjOf [("a", .arr (.cons (.int 1) (.cons (.int 2) .nil)))]] =
      .error (arrayDetail "data[0].a") ∧
    validate_data_structure
        [jobjOf [("a", .obj (jobjOf [("b", .arr (.cons (.int 1) .nil))]))]] =
      .error (arrayDetail "data[0].a.b") ∧
    validate_data_structure
        [jobjOf [("a", .arr .nil), ("b", .arr .nil)], jobjOf [("c", .arr .nil)]] =
      .error (arrayDetail "data[0].a") :=
  ⟨fun data h => validateItems_err 0 data h, rfl, rfl, rfl⟩

/-- Witness for C4: the universal part applied to a concrete offending batch. -/
theorem c4_validator_rejects_arrays_witness :
    ∃ p, validate_data_structure [jobjOf [("x", .arr .nil)]] =
      .error (arrayDetail p) :=
  c4_validator_rejects_arrays.1 _ rfl

/-! ## Lemmas about error classification -/

theorem strData_append : ∀ a b : String, (a ++ b).data = a.data ++ b.data :=
  fun _ _ => rfl

theorem isPrefixOf_append_self : ∀ l m : List Char, l.isPrefixOf (l ++ m) = true := by
  intro l m
  induction l with
  | nil => cases m with | nil => rfl | cons b bs => rfl
  | cons a as ih => simp [List.isPrefixOf, ih]

theorem startsWithStr_append (pre m : String) :
    startsWithStr pre (pre ++ m) = true := by
  show pre.data.isPrefixOf (pre ++ m).data = true
  rw [strData_append]
  exact isPrefixOf_append_self pre.data m.data

theorem sqlPrefix_false_of_arrayDetail (p : String) :
    startsWithStr "SQL execution error: " (arrayDetail p) = false := rfl

/-- Every `HTTPException` the `try` body of `query_json` can raise is a 400
whose detail does not carry the `SQL execution error: ` prefix (it is either
one of the two emptiness messages or an array-validation message). -/
theorem queryBody_http_shape :
    ∀ (data : List JObj) (sql : String) (fc : Bool) (exec : Executor) (s : Nat) (d : String),
      queryBody data sql fc exec = .error (.http s d) →
      s = 400 ∧ startsWithStr "SQL execution error: " d = false := by
  intro data sql fc exec s d h
  unfold queryBody at h
  by_cases h1 : data.isEmpty
  · rw [if_pos h1] at h
    obtain ⟨hs, hd⟩ := Exc.http.inj (Except.error.inj h).symm
    subst hs; subst hd
    exact ⟨rfl, rfl⟩
  · rw [if_neg h1] at h
    by_cases h2 : isBlankSql sql = true
    · rw [if_pos h2] at h
      obtain ⟨hs, hd⟩ := Exc.http.inj (Except.error.inj h).symm
      subst hs; subst hd
      exact ⟨rfl, rfl⟩
    · rw [if_neg h2] at h
      rcases hval : validate_data_structure data with dv | u
      · rw [hval] at h
        obtain ⟨hs, hd⟩ := Exc.http.inj (Except.error.inj h).symm
        obtain ⟨p, hp⟩ := validate_err_detail data dv hval
        subst hs
        refine ⟨rfl, ?_⟩
        rw [hd, hp]
        exact sqlPrefix_false_of_arrayDetail p
      · rw [hval] at h
        rcases hex : exec ((unionColumns data).map sanitize)
            (data.map (rowOfRecord (unionColumns data))) sql with m | rows
        · simp only [hex] at h
          exact absurd (Except.error.inj h) (by simp)
        · simp only [hex] at h
          by_cases h3 : fc = true
          · rw [if_pos h3] at h
            exact absurd h (by simp)
          · rw [if_neg h3] at h
            rcases hu : unflatten_data rows
                (((unionColumns data).map sanitize).zip (unionColumns data)) with _ | out
            · rw [hu] at h
              exact absurd (Except.error.inj h) (by simp)
            · rw [hu] at h
              exact absurd h (by simp)

/-- Claim C7: error classification in the query operation. Validation errors
(the `HTTPException`s of the try body) pass through the handler unwrapped and
are classified as structural; executor errors come back as 400 responses with
the `SQL execution error: ` prefix, classified as query-execution errors; any
other unexpected failure comes back as a 500, classified as internal — so the
caller can tell the three kinds apart via `classifyErr`. -/
theorem c7_error_classification :
    ∀ (data : List JObj) (sql : String) (fc : Bool) (exec : Executor),
      (∀ s d, queryBody data sql fc exec = .error (.http s d) →
        query_json data sql fc exec = .error ⟨s, d⟩ ∧
          classifyErr ⟨s, d⟩ = .structuralKind) ∧
      (∀ m, queryBody data sql fc exec = .error (.dbError m) →
        query_json data sql fc exec = .error ⟨400, "SQL execution error: " ++ m⟩ ∧
          classifyErr ⟨400, "SQL execution error: " ++ m⟩ = .sqlExecKind) ∧
      (∀ m, queryBody data sql fc exec = .error (.unexpected m) →
        query_json data sql fc exec = .error ⟨500, "Internal server error: " ++ m⟩ ∧
          classifyErr ⟨500, "Internal server error: " ++ m⟩ = .internalKind) := by
  intro data sql fc exec
  refine ⟨?_, ?_, ?_⟩
  · intro s d h
    obtain ⟨hs, hpre⟩ := queryBody_http_shape data sql fc exec s d h
    subst hs
    constructor
    · show (queryBody data sql fc exec).mapError handleExc = _
      rw [h]; rfl
    · simp [classifyErr, hpre]
  · intro m h
    constructor
    · show (queryBody data sql fc exec).mapError handleExc = _
      rw [h]; rfl
    · simp [classifyErr, startsWithStr_append]
  · intro m h
    constructor
    · show (queryBody data sql fc exec).mapError handleExc = _
      rw [h]; rfl
    · simp [classifyErr]

/-- Witness for C7: a failing executor on a valid request is re-classified as
a 400 `SQL execution error` and recognized as such by the caller. -/
theorem c7_error_classification_witness :
    query_json [jobjOf [("a", .int 1)]] "SELECT x" false (failExec "boom") =
        .error ⟨400, "SQL execution error: " ++ "boom"⟩ ∧
      classifyErr ⟨400, "SQL execution error: " ++ "boom"⟩ = .sqlExecKind :=
  (c7_error_classification [jobjOf [("a", .int 1)]] "SELECT x" false
    (failExec "boom")).2.1 "boom" rfl

/-! ## Row-wise behaviour of the unflattener -/

/-- Claim C9 (implicit): whenever `unflatten_data` returns, it returns one
output record per input row, in order, and the i-th output is computed from
the i-th row and the mapping alone (rows never influence each other); the
embedding is a pure function of the rows and the mapping, so the inputs are
left unmodified. -/
theorem c9_unflatten_rowwise :
    ∀ (rows : List (List (String × JVal))) (mapping : List (String × String))
      (out : List JObj),
      unflatten_data rows mapping = some out →
      out.length = rows.length ∧
        ∀ i : Nat, out[i]? = (rows[i]?).bind (fun row => unflattenRowGo mapping .nil row) := by
  intro rows mapping
  induction rows with
  | nil =>
    intro out h
    obtain rfl : ([] : List JObj) = out := Option.some.inj h
    exact ⟨rfl, fun i => by simp⟩
  | cons row rest ih =>
    intro out h
    have h' : unflattenRows mapping (row :: rest) = some out := h
    rw [unflattenRows] at h'
    rcases hr : unflattenRowGo mapping .nil row with _ | r
    · rw [hr] at h'; simp at h'
    · rw [hr] at h'
      rcases hrest : unflattenRows mapping rest with _ | rs
      · rw [hrest] at h'; simp at h'
      · rw [hrest] at h'
        obtain rfl : r :: rs = out := Option.some.inj h'
        obtain ⟨hlen, hnth⟩ := ih rs hrest
        refine ⟨by simp [hlen], fun i => ?_⟩
        cases i with
        | zero => simp [hr]
        | succ n => simpa using hnth n

/-- Witness for C9 on a one-row table with the empty mapping. -/
theorem c9_unflatten_rowwise_witness :
    [jobjOf [("a", JVal.int 1)]].length = [[(("a" : String), JVal.int 1)]].length ∧
      [jobjOf [("a", JVal.int 1)]][0]? =
        ([[(("a" : String), JVal.int 1)]][0]?).bind
          (fun row => unflattenRowGo [] .nil row) :=
  ⟨(c9_unflatten_rowwise [[(("a" : String), JVal.int 1)]] []
      [jobjOf [("a", JVal.int 1)]] rfl).1,
   (c9_unflatten_rowwise [[(("a" : String), JVal.int 1)]] []
      [jobjOf [("a", JVal.int 1)]] rfl).2 0⟩

/-! ## Lemmas about segment paths -/

theorem segPre_self : ∀ l : List String, segPre l l = true := by
  intro l
  induction l with
  | nil => rfl
  | cons a as ih => simp [segPre, ih]

theorem segPre_two_cons (x : String) (a b : List String) :
    segPre (x :: a) (x :: b) = segPre a b := by
  simp [segPre]

theorem segPre_length_le : ∀ a b : List String, segPre a b = true → a.length ≤ b.length := by
  intro a
  induction a with
  | nil => intro b _; simp
  | cons x as ih =>
    intro b h
    cases b with
    | nil => simp [segPre] at h
    | cons y bs =>
      simp only [segPre, Bool.and_eq_true] at h
      simpa using ih bs h.2

theorem segPre_eq_of_length_le :
    ∀ a b : List String, segPre a b = true → b.length ≤ a.length → a = b := by
  intro a
  induction a with
  | nil =>
    intro b _ hl
    cases b with
    | nil => rfl
    | cons y bs => simp at hl
  | cons x as ih =>
    intro b h hl
    cases b with
    | nil => simp [segPre] at h
    | cons y bs =>
      simp only [segPre, Bool.and_eq_true] at h
      obtain rfl := eq_of_beq h.1
      rw [ih bs h.2 (by simpa using hl)]

theorem segPre_trans :
    ∀ a b c : List String, segPre a b = true → segPre b c = true → segPre a c = true := by
  intro a
  induction a with
  | nil => intro b c _ _; rfl
  | cons x as ih =>
    intro b c h1 h2
    cases b with
    | nil => simp [segPre] at h1
    | cons y bs =>
      cases c with
      | nil => simp [segPre] at h2
      | cons z cs =>
        simp only [segPre, Bool.and_eq_true] at h1 h2 ⊢
        obtain rfl := eq_of_beq h1.1
        obtain rfl := eq_of_beq h2.1
        exact ⟨by simp, ih bs cs h1.2 h2.2⟩

theorem segPre_antisymm (a b : List String)
    (h1 : segPre a b = true) (h2 : segPre b a = true) : a = b :=
  segPre_eq_of_length_le a b h1 (segPre_length_le b a h2)

/-! ## Lemmas about dict operations and the unflatten walk -/

theorem dictGet_dictSet :
    ∀ (r : JObj) (k0 : String) (v : JVal) (k : String),
      dictGet (dictSet r k0 v) k = if k0 = k then some v else dictGet r k
  | .nil, k0, v, k => by
    by_cases h : k0 = k
    · simp [dictSet, dictGet, h]
    · simp [dictSet, dictGet, h]
  | .cons k' v' rest, k0, v, k => by
    by_cases h1 : k' = k0
    · subst h1
      by_cases h2 : k' = k
      · simp [dictSet, dictGet, h2]
      · simp [dictSet, dictGet, h2]
    · by_cases h2 : k' = k
      · subst h2
        have h3 : k0 ≠ k' := fun hh => h1 hh.symm
        simp [dictSet, dictGet, h1, h3]
      · simp [dictSet, dictGet, h1, h2, dictGet_dictSet rest k0 v k]

theorem nonObjAtGo_nil : ∀ (k : String) (qrest : List String),
    nonObjAtGo .nil k qrest = false := by
  intro k qrest
  cases qrest with
  | nil => rfl
  | cons a as => rfl

theorem getAtPathGo_nil : ∀ (k : String) (qrest : List String),
    getAtPathGo .nil k qrest = none := by
  intro k qrest
  cases qrest with
  | nil => rfl
  | cons a as => rfl

theorem nonObjAtGo_congr {r1 r2 : JObj} {k : String}
    (h : dictGet r1 k = dictGet r2 k) (qrest : List String) :
    nonObjAtGo r1 k qrest = nonObjAtGo r2 k qrest := by
  cases qrest with
  | nil => simp only [nonObjAtGo, h]
  | cons a as => simp only [nonObjAtGo, h]

theorem getAtPathGo_congr {r1 r2 : JObj} {k : String}
    (h : dictGet r1 k = dictGet r2 k) (qrest : List String) :
    getAtPathGo r1 k qrest = getAtPathGo r2 k qrest := by
  cases qrest with
  | nil => simp only [getAtPathGo, h]
  | cons a as => simp only [getAtPathGo, h]

/-- The walk of `setPathGo` succeeds whenever no non-object value of the tree
sits at a strict prefix of the path being inserted. -/
theorem setPathGo_some :
    ∀ (rest : List String) (part : String) (tree : JObj) (v : JVal),
      (∀ k qrest, nonObjAtGo tree k qrest = true →
        segPre (k :: qrest) (part :: rest) = true → k :: qrest = part :: rest) →
      ∃ t', setPathGo tree part rest v = some t' := by
  intro rest
  induction rest with
  | nil => intro part tree v _; exact ⟨dictSet tree part v, rfl⟩
  | cons next rest' ih =>
    intro part tree v H
    rcases hd : dictGet tree part with _ | val
    · obtain ⟨sub, hsub⟩ := ih next .nil v
        (fun k qrest hno _ => absurd hno (by simp [nonObjAtGo_nil]))
      exact ⟨dictSet tree part (.obj sub), by simp only [setPathGo, hd, hsub]⟩
    · cases val with
      | obj sub =>
        have H' : ∀ k qrest, nonObjAtGo sub k qrest = true →
            segPre (k :: qrest) (next :: rest') = true → k :: qrest = next :: rest' := by
          intro k qrest hno hsp
          have hno' : nonObjAtGo tree part (k :: qrest) = true := by
            simp only [nonObjAtGo, hd]; exact hno
          have hsp' : segPre (part :: k :: qrest) (part :: next :: rest') = true := by
            rw [segPre_two_cons]; exact hsp
          have := H part (k :: qrest) hno' hsp'
          exact (List.cons.inj this).2
        obtain ⟨sub', hsub⟩ := ih next sub v H'
        exact ⟨dictSet tree part (.obj sub'), by simp only [setPathGo, hd, hsub]⟩
      | null =>
        exact absurd (H part [] (by simp [nonObjAtGo, hd]) (by simp [segPre])) (by simp)
      | bool b =>
        exact absurd (H part [] (by simp [nonObjAtGo, hd]) (by simp [segPre])) (by simp)
      | int n =>
        exact absurd (H part [] (by simp [nonObjAtGo, hd]) (by simp [segPre])) (by simp)
      | str s =>
        exact absurd (H part [] (by simp [nonObjAtGo, hd]) (by simp [segPre])) (by simp)
      | arr es =>
        exact absurd (H part [] (by simp [nonObjAtGo, hd]) (by simp [segPre])) (by simp)

/-- After a successful insertion, every non-object position of the new tree is
either an old one or an extension of the inserted path. -/
theorem setPathGo_nonObj :
    ∀ (rest : List String) (part : String) (tree : JObj) (v : JVal) (t' : JObj),
      setPathGo tree part rest v = some t' →
      ∀ (k : String) (qrest : List String), nonObjAtGo t' k qrest = true →
        nonObjAtGo tree k qrest = true ∨ segPre (part :: rest) (k :: qrest) = true := by
  intro rest
  induction rest with
  | nil =>
    intro part tree v t' h k qrest hno
    obtain rfl : dictSet tree part v = t' := Option.some.inj h
    by_cases hk : part = k
    · subst hk
      right
      simp [segPre]
    · left
      have hg : dictGet (dictSet tree part v) k = dictGet tree k := by
        rw [dictGet_dictSet, if_neg hk]
      rw [← nonObjAtGo_congr hg qrest]
      exact hno
  | cons next rest' ih =>
    intro part tree v t' h k qrest hno
    simp only [setPathGo] at h
    rcases hd : dictGet tree part with _ | val
    · simp only [hd] at h
      rcases hsub : setPathGo .nil next rest' v with _ | sub
      · simp only [hsub] at h; simp at h
      · simp only [hsub] at h
        obtain rfl : dictSet tree part (.obj sub) = t' := Option.some.inj h
        by_cases hk : part = k
        · subst hk
          have hg : dictGet (dictSet tree part (.obj sub)) part = some (.obj sub) := by
            rw [dictGet_dictSet, if_pos rfl]
          cases qrest with
          | nil => simp [nonObjAtGo, hg] at hno
          | cons k2 q2 =>
            simp only [nonObjAtGo, hg] at hno
            rcases ih next .nil v sub hsub k2 q2 hno with hcase | hcase
            · rw [nonObjAtGo_nil] at hcase; exact absurd hcase (by simp)
            · right; rw [segPre_two_cons]; exact hcase
        · left
          have hg : dictGet (dictSet tree part (.obj sub)) k = dictGet tree k := by
            rw [dictGet_dictSet, if_neg hk]
          rw [← nonObjAtGo_congr hg qrest]
          exact hno
    · cases val with
      | obj sub0 =>
        simp only [hd] at h
        rcases hsub : setPathGo sub0 next rest' v with _ | sub'
        · simp only [hsub] at h; simp at h
        · simp only [hsub] at h
          obtain rfl : dictSet tree part (.obj sub') = t' := Option.some.inj h
          by_cases hk : part = k
          · subst hk
            have hg : dictGet (dictSet tree part (.obj sub')) part = some (.obj sub') := by
              rw [dictGet_dictSet, if_pos rfl]
            cases qrest with
            | nil => simp [nonObjAtGo, hg] at hno
            | cons k2 q2 =>
              simp only [nonObjAtGo, hg] at hno
              rcases ih next sub0 v sub' hsub k2 q2 hno with hcase | hcase
              · left
                simp only [nonObjAtGo, hd]
                exact hcase
              · right; rw [segPre_two_cons]; exact hcase
          · left
            have hg : dictGet (dictSet tree part (.obj sub')) k = dictGet tree k := by
              rw [dictGet_dictSet, if_neg hk]
            rw [← nonObjAtGo_congr hg qrest]
            exact hno
      | null => simp only [hd] at h; simp at h
      | bool b => simp only [hd] at h; simp at h
      | int n => simp only [hd] at h; simp at h
      | str s => simp only [hd] at h; simp at h
      | arr es => simp only [hd] at h; simp at h

/-- After a successful insertion, the inserted value sits at the inserted path. -/
theorem setPathGo_get_self :
    ∀ (rest : List String) (part : String) (tree : JObj) (v : JVal) (t' : JObj),
      setPathGo tree part rest v = some t' →
      getAtPathGo t' part rest = some v := by
  intro rest
  induction rest with
  | nil =>
    intro part tree v t' h
    obtain rfl := Option.some.inj h
    simp only [getAtPathGo]
    rw [dictGet_dictSet, if_pos rfl]
  | cons next rest' ih =>
    intro part tree v t' h
    simp only [setPathGo] at h
    rcases hd : dictGet tree part with _ | val
    · simp only [hd] at h
      rcases hsub : setPathGo .nil next rest' v with _ | sub
      · simp only [hsub] at h; simp at h
      · simp only [hsub] at h
        obtain rfl := Option.some.inj h
        have hg : dictGet (dictSet tree part (.obj sub)) part = some (.obj sub) := by
          rw [dictGet_dictSet, if_pos rfl]
        simp only [getAtPathGo, hg]
        exact ih next .nil v sub hsub
    · cases val with
      | obj sub0 =>
        simp only [hd] at h
        rcases hsub : setPathGo sub0 next rest' v with _ | sub'
        · simp only [hsub] at h; simp at h
        · simp only [hsub] at h
          obtain rfl := Option.some.inj h
          have hg : dictGet (dictSet tree part (.obj sub')) part = some (.obj sub') := by
            rw [dictGet_dictSet, if_pos rfl]
          simp only [getAtPathGo, hg]
          exact ih next sub0 v sub' hsub
      | null => simp only [hd] at h; simp at h
      | bool b => simp only [hd] at h; simp at h
      | int n => simp only [hd] at h; simp at h
      | str s => simp only [hd] at h; simp at h
      | arr es => simp only [hd] at h; simp at h

/-- A successful insertion leaves every path incomparable with the inserted
one untouched. -/
theorem setPathGo_get_other :
    ∀ (rest : List String) (part : String) (tree : JObj) (v : JVal) (t' : JObj),
      setPathGo tree part rest v = some t' →
      ∀ (k : String) (qrest : List String),
        segPre (part :: rest) (k :: qrest) = false →
        segPre (k :: qrest) (part :: rest) = false →
        getAtPathGo t' k qrest = getAtPathGo tree k qrest := by
  intro rest
  induction rest with
  | nil =>
    intro part tree v t' h k qrest h1 h2
    obtain rfl := Option.some.inj h
    by_cases hk : part = k
    · exfalso
      subst hk
      have hs : segPre (part :: ([] : List String)) (part :: qrest) = true := by
        rw [segPre_two_cons]; rfl
      rw [hs] at h1
      exact absurd h1 (by simp)
    · exact getAtPathGo_congr (by rw [dictGet_dictSet, if_neg hk]) qrest
  | cons next rest' ih =>
    intro part tree v t' h k qrest h1 h2
    simp only [setPathGo] at h
    by_cases hk : part = k
    · subst hk
      rw [segPre_two_cons] at h1 h2
      cases qrest with
      | nil =>
        exfalso
        have hs : segPre ([] : List String) (next :: rest') = true := rfl
        rw [hs] at h2
        exact absurd h2 (by simp)
      | cons k2 q2 =>
        rcases hd : dictGet tree part with _ | val
        · simp only [hd] at h
          rcases hsub : setPathGo .nil next rest' v with _ | sub
          · simp only [hsub] at h; simp at h
          · simp only [hsub] at h
            obtain rfl := Option.some.inj h
            have hg : dictGet (dictSet tree part (.obj sub)) part = some (.obj sub) := by
              rw [dictGet_dictSet, if_pos rfl]
            have hL : getAtPathGo (dictSet tree part (.obj sub)) part (k2 :: q2) =
                getAtPathGo sub k2 q2 := by
              simp only [getAtPathGo, hg]
            have hR : getAtPathGo tree part (k2 :: q2) = none := by
              simp only [getAtPathGo, hd]
            rw [hL, hR, ih next .nil v sub hsub k2 q2 h1 h2]
            exact getAtPathGo_nil k2 q2
        · cases val with
          | obj sub0 =>
            simp only [hd] at h
            rcases hsub : setPathGo sub0 next rest' v with _ | sub'
            · simp only [hsub] at h; simp at h
            · simp only [hsub] at h
              obtain rfl := Option.some.inj h
              have hg : dictGet (dictSet tree part (.obj sub')) part = some (.obj sub') := by
                rw [dictGet_dictSet, if_pos rfl]
              have hL : getAtPathGo (dictSet tree part (.obj sub')) part (k2 :: q2) =
                  getAtPathGo sub' k2 q2 := by
                simp only [getAtPathGo, hg]
              have hR : getAtPathGo tree part (k2 :: q2) = getAtPathGo sub0 k2 q2 := by
                simp only [getAtPathGo, hd]
              rw [hL, hR]
              exact ih next sub0 v sub' hsub k2 q2 h1 h2
          | null => simp only [hd] at h; simp at h
          | bool b => simp only [hd] at h; simp at h
          | int n => simp only [hd] at h; simp at h
          | str s => simp only [hd] at h; simp at h
          | arr es => simp only [hd] at h; simp at h
    · rcases hd : dictGet tree part with _ | val
      · simp only [hd] at h
        rcases hsub : setPathGo .nil next rest' v with _ | sub
        · simp only [hsub] at h; simp at h
        · simp only [hsub] at h
          obtain rfl := Option.some.inj h
          exact getAtPathGo_congr (by rw [dictGet_dictSet, if_neg hk]) qrest
      · cases val with
        | obj sub0 =>
          simp only [hd] at h
          rcases hsub : setPathGo sub0 next rest' v with _ | sub'
          · simp only [hsub] at h; simp at h
          · simp only [hsub] at h
            obtain rfl := Option.some.inj h
            exact getAtPathGo_congr (by rw [dictGet_dictSet, if_neg hk]) qrest
        | null => simp only [hd] at h; simp at h
        | bool b => simp only [hd] at h; simp at h
        | int n => simp only [hd] at h; simp at h
        | str s => simp only [hd] at h; simp at h
        | arr es => simp only [hd] at h; simp at h

theorem splitChars_ne_nil : ∀ l : List Char, splitChars l ≠ [] := by
  intro l
  induction l with
  | nil => simp [splitChars]
  | cons c cs ih =>
    by_cases h : c = '.'
    · simp [splitChars, h]
    · rcases hm : splitChars cs with _ | ⟨a, t⟩
      · exact absurd hm ih
      · simp [splitChars, h, hm]

theorem resolveKey_ne_nil (mapping : List (String × String)) (k : String) :
    resolveKey mapping k ≠ [] := by
  intro h
  have h' : splitChars ((pyGet mapping k).getD k).data = [] := by
    have := congrArg List.length h
    simp only [resolveKey, splitDots, List.length_map] at this
    exact List.eq_nil_of_length_eq_zero this
  exact splitChars_ne_nil _ h'

theorem nonObjAt_nil : ∀ q : List String, nonObjAt .nil q = false := by
  intro q
  cases q with
  | nil => rfl
  | cons k qrest => exact nonObjAtGo_nil k qrest

theorem incompB_eq_true (a b : List String) :
    incompB a b = true ↔ segPre a b = false ∧ segPre b a = false := by
  simp [incompB]

/-- Inserting the paths of a row one by one succeeds and stores every value at
its resolved path, provided the resolved paths are pairwise incomparable and
the starting tree has no non-object value on or under any of them. -/
theorem unflattenRowGo_total :
    ∀ (mapping : List (String × String)) (todo : List (String × JVal)) (tree : JObj),
      (∀ q, nonObjAt tree q = true → ∀ e, e ∈ todo →
        segPre q (resolveKey mapping e.1) = true → q = resolveKey mapping e.1) →
      pairwiseIncompB (todo.map (fun e => resolveKey mapping e.1)) = true →
      ∃ t', unflattenRowGo mapping tree todo = some t' ∧
        (∀ e, e ∈ todo → getAtPath t' (resolveKey mapping e.1) = some e.2) ∧
        (∀ q, (∀ e, e ∈ todo → incompB q (resolveKey mapping e.1) = true) →
          getAtPath t' q = getAtPath tree q) := by
  intro mapping todo
  induction todo with
  | nil =>
    intro tree _ _
    exact ⟨tree, rfl, by simp, fun q _ => rfl⟩
  | cons e0 rest ih =>
    rcases e0 with ⟨key0, v0⟩
    intro tree H1 H2
    simp only [List.map_cons, pairwiseIncompB, Bool.and_eq_true] at H2
    have hincomp : ∀ f, f ∈ rest →
        incompB (resolveKey mapping key0) (resolveKey mapping f.1) = true := by
      intro f hf
      exact (List.all_eq_true.mp H2.1) _ (List.mem_map_of_mem _ hf)
    rcases hsplit : resolveKey mapping key0 with _ | ⟨k0, r0⟩
    · exact absurd hsplit (resolveKey_ne_nil mapping key0)
    have Hsafe : ∀ k qrest, nonObjAtGo tree k qrest = true →
        segPre (k :: qrest) (k0 :: r0) = true → k :: qrest = k0 :: r0 := by
      intro k qrest hno hsp
      have := H1 (k :: qrest) hno (key0, v0) (List.mem_cons_self _ _)
      rw [hsplit] at this
      exact this hsp
    obtain ⟨t1, ht1⟩ := setPathGo_some r0 k0 tree v0 Hsafe
    have hset : setPath tree (splitDots ((pyGet mapping key0).getD key0)) v0 = some t1 := by
      show setPath tree (resolveKey mapping key0) v0 = some t1
      rw [hsplit]
      exact ht1
    have H1' : ∀ q, nonObjAt t1 q = true → ∀ e, e ∈ rest →
        segPre q (resolveKey mapping e.1) = true → q = resolveKey mapping e.1 := by
      intro q hno e he hsp
      cases q with
      | nil => rw [nonObjAt] at hno; exact absurd hno (by simp)
      | cons kq qr =>
        rcases setPathGo_nonObj r0 k0 tree v0 t1 ht1 kq qr hno with hold | hext
        · exact H1 (kq :: qr) hold e (List.mem_cons_of_mem _ he) hsp
        · exfalso
          have htr : segPre (k0 :: r0) (resolveKey mapping e.1) = true :=
            segPre_trans _ (kq :: qr) _ hext hsp
          have hinc := hincomp e he
          rw [hsplit, incompB_eq_true] at hinc
          rw [hinc.1] at htr
          exact absurd htr (by simp)
    obtain ⟨t', ht', hcontent, hpres⟩ := ih t1 H1' H2.2
    refine ⟨t', ?_, ?_, ?_⟩
    · show unflattenRowGo mapping tree ((key0, v0) :: rest) = some t'
      simp only [unflattenRowGo, hset]
      exact ht'
    · intro e he
      rcases List.mem_cons.mp he with he0 | hrest
      · subst he0
        rw [hpres _ hincomp, hsplit]
        exact setPathGo_get_self r0 k0 tree v0 t1 ht1
      · exact hcontent e hrest
    · intro q hq
      rw [hpres q (fun e he => hq e (List.mem_cons_of_mem _ he))]
      have hq0 := hq (key0, v0) (List.mem_cons_self _ _)
      rw [hsplit, incompB_eq_true] at hq0
      cases q with
      | nil => rfl
      | cons kq qr =>
        exact setPathGo_get_other r0 k0 tree v0 t1 ht1 kq qr hq0.2 hq0.1

/-- Inserting the paths of a row one by one succeeds provided no resolved path
is a strict proper prefix of another (duplicates allowed) and the starting
tree has no non-object value on a strict prefix of any of them. -/
theorem unflattenRowGo_some_of_noStrict :
    ∀ (mapping : List (String × String)) (todo : List (String × JVal)) (tree : JObj),
      (∀ q, nonObjAt tree q = true → ∀ e, e ∈ todo →
        segPre q (resolveKey mapping e.1) = true → q = resolveKey mapping e.1) →
      (∀ e f, e ∈ todo → f ∈ todo →
        segPre (resolveKey mapping e.1) (resolveKey mapping f.1) = true →
        resolveKey mapping e.1 = resolveKey mapping f.1) →
      ∃ t', unflattenRowGo mapping tree todo = some t' := by
  intro mapping todo
  induction todo with
  | nil => intro tree _ _; exact ⟨tree, rfl⟩
  | cons e0 rest ih =>
    rcases e0 with ⟨key0, v0⟩
    intro tree H1 H2
    rcases hsplit : resolveKey mapping key0 with _ | ⟨k0, r0⟩
    · exact absurd hsplit (resolveKey_ne_nil mapping key0)
    have Hsafe : ∀ k qrest, nonObjAtGo tree k qrest = true →
        segPre (k :: qrest) (k0 :: r0) = true → k :: qrest = k0 :: r0 := by
      intro k qrest hno hsp
      have := H1 (k :: qrest) hno (key0, v0) (List.mem_cons_self _ _)
      rw [hsplit] at this
      exact this hsp
    obtain ⟨t1, ht1⟩ := setPathGo_some r0 k0 tree v0 Hsafe
    have hset : setPath tree (splitDots ((pyGet mapping key0).getD key0)) v0 = some t1 := by
      show setPath tree (resolveKey mapping key0) v0 = some t1
      rw [hsplit]
      exact ht1
    have H1' : ∀ q, nonObjAt t1 q = true → ∀ e, e ∈ rest →
        segPre q (resolveKey mapping e.1) = true → q = resolveKey mapping e.1 := by
      intro q hno e he hsp
      cases q with
      | nil => rw [nonObjAt] at hno; exact absurd hno (by simp)
      | cons kq qr =>
        rcases setPathGo_nonObj r0 k0 tree v0 t1 ht1 kq qr hno with hold | hext
        · exact H1 (kq :: qr) hold e (List.mem_cons_of_mem _ he) hsp
        · have htr : segPre (k0 :: r0) (resolveKey mapping e.1) = true :=
            segPre_trans _ (kq :: qr) _ hext hsp
          have heq : resolveKey mapping key0 = resolveKey mapping e.1 := by
            refine H2 (key0, v0) e (List.mem_cons_self _ _) (List.mem_cons_of_mem _ he) ?_
            rw [hsplit]
            exact htr
          rw [← heq, hsplit]
          rw [← heq, hsplit] at hsp
          exact segPre_antisymm _ _ hsp hext
    obtain ⟨t', ht'⟩ := ih t1 H1'
      (fun e f he hf => H2 e f (List.mem_cons_of_mem _ he) (List.mem_cons_of_mem _ hf))
    refine ⟨t', ?_⟩
    show unflattenRowGo mapping tree ((key0, v0) :: rest) = some t'
    simp only [unflattenRowGo, hset]
    exact ht'

theorem prefixFreeB_spec (l : List (List String)) (h : prefixFreeB l = true) :
    ∀ p q, p ∈ l → q ∈ l → segPre p q = true → p = q := by
  intro p q hp hq hsp
  have h1 := (List.all_eq_true.mp ((List.all_eq_true.mp h) p hp)) q hq
  rw [hsp] at h1
  simp only [Bool.true_and, Bool.not_eq_eq_eq_not, Bool.not_true] at h1
  have : (p == q) = true := by
    cases hbe : p == q with
    | true => rfl
    | false => rw [bne, hbe] at h1; simp at h1
  exact eq_of_beq this

/-- Claim C10 (implicit): `unflatten_data` is total when, in every row, no
resolved path is a strict proper segment-wise prefix of another resolved path
of the same row; without that precondition the walk can reach a previously
assigned non-dict value and raise, as on the row
`{"a": 1, "a.b": 2}` with the empty mapping. -/
theorem c10_unflatten_total_when_no_strict_prefixes :
    (∀ (rows : List (List (String × JVal))) (mapping : List (String × String)),
       (∀ row, row ∈ rows → prefixFreeB (resolvedParts mapping row) = true) →
       ∃ out, unflatten_data rows mapping = some out) ∧
      unflatten_data [[("a", JVal.int 1), ("a.b", JVal.int 2)]] [] = none := by
  constructor
  · intro rows mapping
    induction rows with
    | nil => intro _; exact ⟨[], rfl⟩
    | cons row rest ih =>
      intro h
      obtain ⟨r, hr⟩ := unflattenRowGo_some_of_noStrict mapping row .nil
        (fun q hno _ _ _ => absurd (hno.symm.trans (nonObjAt_nil q)) (by simp))
        (fun e f he hf hsp =>
          prefixFreeB_spec _ (h row (List.mem_cons_self _ _)) _ _
            (List.mem_map_of_mem _ he) (List.mem_map_of_mem _ hf) hsp)
      obtain ⟨out, hout⟩ := ih (fun rw hrw => h rw (List.mem_cons_of_mem _ hrw))
      refine ⟨r :: out, ?_⟩
      show unflattenRows mapping (row :: rest) = some (r :: out)
      rw [unflattenRows, hr]
      have hout' : unflattenRows mapping rest = some out := hout
      rw [hout']
  · rfl

/-- Witness for C10: a prefix-free two-column row unflattens successfully. -/
theorem c10_unflatten_total_when_no_strict_prefixes_witness :
    ∃ out, unflatten_data [[("a", JVal.int 1), ("b.c", JVal.int 2)]] [] = some out :=
  c10_unflatten_total_when_no_strict_prefixes.1
    [[("a", JVal.int 1), ("b.c", JVal.int 2)]] [] (by decide)

/-! ## Split/join round trip for dot-free segments -/

theorem strMk_data (s : String) : String.mk s.data = s := rfl

theorem splitChars_of_noDot : ∀ l : List Char, '.' ∉ l → splitChars l = [l] := by
  intro l
  induction l with
  | nil => intro _; rfl
  | cons c cs ih =>
    intro h
    have hc : c ≠ '.' := fun hh => h (hh ▸ List.mem_cons_self c cs)
    have hcs : '.' ∉ cs := fun hh => h (List.mem_cons_of_mem c hh)
    simp [splitChars, hc, ih hcs]

theorem splitChars_append_dot :
    ∀ a b : List Char, '.' ∉ a → splitChars (a ++ '.' :: b) = a :: splitChars b := by
  intro a
  induction a with
  | nil => intro b _; simp [splitChars]
  | cons c cs ih =>
    intro b h
    have hc : c ≠ '.' := fun hh => h (hh ▸ List.mem_cons_self c cs)
    have hcs : '.' ∉ cs := fun hh => h (List.mem_cons_of_mem c hh)
    simp [splitChars, hc, ih b hcs]

theorem noDotStr_spec (s : String) : noDotStr s = true ↔ '.' ∉ s.data := by
  simp [noDotStr]

theorem splitDots_joinSegs :
    ∀ segs : List String, segs ≠ [] → (∀ s ∈ segs, noDotStr s = true) →
      splitDots (joinSegs segs) = segs := by
  intro segs
  induction segs with
  | nil => intro h _; exact absurd rfl h
  | cons s rest ih =>
    intro _ hnd
    cases rest with
    | nil =>
      show splitDots (joinSegs [s]) = [s]
      have hs : '.' ∉ s.data := (noDotStr_spec s).mp (hnd s (List.mem_cons_self _ _))
      show (splitChars (joinSegs [s]).data).map String.mk = [s]
      rw [show joinSegs [s] = s from rfl, splitChars_of_noDot s.data hs]
      simp [strMk_data]
    | cons s2 rest2 =>
      have hs : '.' ∉ s.data := (noDotStr_spec s).mp (hnd s (List.mem_cons_self _ _))
      show splitDots (s ++ "." ++ joinSegs (s2 :: rest2)) = s :: s2 :: rest2
      have hd : (s ++ "." ++ joinSegs (s2 :: rest2)).data =
          s.data ++ '.' :: (joinSegs (s2 :: rest2)).data := by
        rw [strData_append, strData_append]
        simp
      show (splitChars (s ++ "." ++ joinSegs (s2 :: rest2)).data).map String.mk = _
      rw [hd, splitChars_append_dot s.data _ hs]
      simp only [List.map_cons, strMk_data]
      have hrec := ih (by simp) (fun x hx => hnd x (List.mem_cons_of_mem _ hx))
      show s :: splitDots (joinSegs (s2 :: rest2)) = s :: s2 :: rest2
      rw [hrec]

/-! ## Facts about the flattener -/

mutual
theorem segLeavesVal_dotFree : ∀ (v : JVal), dotFreeVal v = true →
    ∀ e, e ∈ segLeavesVal v → ∀ s, s ∈ e.1 → noDotStr s = true
  | .obj fs, h, e, he, s, hs => segLeavesObj_dotFree fs h e he s hs
  | .null, _, e, he, s, hs => by
    simp [segLeavesVal] at he; subst he; simp at hs
  | .bool b, _, e, he, s, hs => by
    simp [segLeavesVal] at he; subst he; simp at hs
  | .int n, _, e, he, s, hs => by
    simp [segLeavesVal] at he; subst he; simp at hs
  | .str t, _, e, he, s, hs => by
    simp [segLeavesVal] at he; subst he; simp at hs
  | .arr es, _, e, he, s, hs => by
    simp [segLeavesVal] at he; subst he; simp at hs
theorem segLeavesObj_dotFree : ∀ (fs : JObj), dotFreeObj fs = true →
    ∀ e, e ∈ segLeavesObj fs → ∀ s, s ∈ e.1 → noDotStr s = true
  | .nil, _, e, he, _, _ => by simp [segLeavesObj] at he
  | .cons k v rest, h, e, he, s, hs => by
    have h' : noDotStr k = true ∧ dotFreeVal v = true ∧ dotFreeObj rest = true := by
      have hh := h
      simp only [dotFreeObj, Bool.and_eq_true] at hh
      exact ⟨hh.1.1, hh.1.2, hh.2⟩
    simp only [segLeavesObj, List.mem_append, List.mem_map] at he
    rcases he with ⟨e', he', rfl⟩ | hrest
    · rcases List.mem_cons.mp hs with rfl | hs'
      · exact h'.1
      · exact segLeavesVal_dotFree v h'.2.1 e' he' s hs'
    · exact segLeavesObj_dotFree rest h'.2.2 e hrest s hs
end

theorem segLeavesObj_shape :
    ∀ (fs : JObj) (e : List String × JVal), e ∈ segLeavesObj fs →
      ∃ k t, e.1 = k :: t ∧ k ∈ objKeys fs
  | .nil, e, he => by simp [segLeavesObj] at he
  | .cons k v rest, e, he => by
    simp only [segLeavesObj, List.mem_append, List.mem_map] at he
    rcases he with ⟨e', _, rfl⟩ | hrest
    · exact ⟨k, e'.1, rfl, by simp [objKeys]⟩
    · obtain ⟨k', t', hk', hmem⟩ := segLeavesObj_shape rest e hrest
      exact ⟨k', t', hk', by simp [objKeys, hmem]⟩

mutual
theorem segLeavesVal_nodup : ∀ v : JVal, wfVal v = true →
    ((segLeavesVal v).map Prod.fst).Nodup
  | .obj fs, h => segLeavesObj_nodup fs h
  | .null, _ => by simp [segLeavesVal]
  | .bool b, _ => by simp [segLeavesVal]
  | .int n, _ => by simp [segLeavesVal]
  | .str t, _ => by simp [segLeavesVal]
  | .arr es, _ => by simp [segLeavesVal]
theorem segLeavesObj_nodup : ∀ fs : JObj, wfObj fs = true →
    ((segLeavesObj fs).map Prod.fst).Nodup
  | .nil, _ => by simp [segLeavesObj]
  | .cons k v rest, h => by
    have h' : (objKeys rest).contains k = false ∧ wfVal v = true ∧ wfObj rest = true := by
      have hh := h
      simp only [wfObj, Bool.and_eq_true] at hh
      refine ⟨?_, hh.1.2, hh.2⟩
      have := hh.1.1
      cases hc : (objKeys rest).contains k with
      | false => rfl
      | true => rw [hc] at this; simp at this
    have hknotin : k ∉ objKeys rest := by
      intro hmem
      have : (objKeys rest).contains k = true := List.elem_iff.mpr hmem
      rw [h'.1] at this
      exact absurd this (by simp)
    simp only [segLeavesObj, List.map_append, List.map_map]
    rw [List.nodup_append]
    refine ⟨?_, segLeavesObj_nodup rest h'.2.2, ?_⟩
    · have hx : ((segLeavesVal v).map Prod.fst).map (fun l => k :: l) =
          (segLeavesVal v).map (Prod.fst ∘ fun e => (k :: e.1, e.2)) := by
        rw [List.map_map]
        rfl
      rw [← hx]
      exact (segLeavesVal_nodup v h'.2.1).map
        (fun a b hab => (List.cons.inj hab).2)
    · intro x hx hx'
      obtain ⟨ea, _, rfl⟩ := List.mem_map.mp hx
      obtain ⟨eb, heb, hfb⟩ := List.mem_map.mp hx'
      obtain ⟨k', t', hk', hmem⟩ := segLeavesObj_shape rest eb heb
      have : k = k' := by
        have : (Prod.fst ∘ fun e : List String × JVal => (k :: e.1, e.2)) ea = eb.1 := hfb.symm
        rw [hk'] at this
        exact (List.cons.inj this).1
      exact hknotin (this ▸ hmem)
end

theorem flattenRecord_keys_nodup (r : JObj) (hwf : wfObj r = true)
    (hdf : dotFreeObj r = true) : ((flattenRecord r).map Prod.fst).Nodup := by
  have h1 : ((segLeavesObj r).map Prod.fst).Nodup := segLeavesObj_nodup r hwf
  have hmapeq : (flattenRecord r).map Prod.fst =
      ((segLeavesObj r).map Prod.fst).map joinSegs := by
    simp only [flattenRecord, List.map_map]
    rfl
  rw [hmapeq]
  apply List.Nodup.map_on ?_ h1
  intro a ha b hb heq
  obtain ⟨ea, hea, rfl⟩ := List.mem_map.mp ha
  obtain ⟨eb, heb, rfl⟩ := List.mem_map.mp hb
  obtain ⟨ka, ta, hka, _⟩ := segLeavesObj_shape r ea hea
  obtain ⟨kb, tb, hkb, _⟩ := segLeavesObj_shape r eb heb
  have hda : ∀ s ∈ ea.1, noDotStr s = true := fun s hs => segLeavesObj_dotFree r hdf ea hea s hs
  have hdb : ∀ s ∈ eb.1, noDotStr s = true := fun s hs => segLeavesObj_dotFree r hdf eb heb s hs
  rw [← splitDots_joinSegs ea.1 (by rw [hka]; simp) hda, heq,
    splitDots_joinSegs eb.1 (by rw [hkb]; simp) hdb]

theorem lookup_of_mem_nodup :
    ∀ (l : List (String × JVal)) (p : String) (v : JVal),
      (l.map Prod.fst).Nodup → (p, v) ∈ l → l.lookup p = some v := by
  intro l
  induction l with
  | nil => intro p v _ h; simp at h
  | cons a l ih =>
    intro p v hnd hmem
    rcases a with ⟨ka, va⟩
    rcases List.mem_cons.mp hmem with heq | hmem'
    · obtain ⟨rfl, rfl⟩ := Prod.mk.inj heq
      simp [List.lookup]
    · have hne : ka ≠ p := by
        simp only [List.map_cons, List.nodup_cons] at hnd
        intro hh
        subst hh
        exact hnd.1 (List.mem_map_of_mem Prod.fst hmem')
      have hbe : (p == ka) = false := by
        cases hc : p == ka with
        | false => rfl
        | true => exact absurd (eq_of_beq hc).symm hne
      have hnd' : (l.map Prod.fst).Nodup := by
        simp only [List.map_cons, List.nodup_cons] at hnd
        exact hnd.2
      simp [List.lookup, hbe, ih p v hnd' hmem']

theorem mem_dedupFirstGo_of_mem :
    ∀ (l seen : List String) (x : String), x ∈ l → x ∉ seen →
      x ∈ dedupFirstGo seen l := by
  intro l
  induction l with
  | nil => intro seen x h _; simp at h
  | cons a l ih =>
    intro seen x hx hns
    by_cases h : seen.contains a = true
    · simp only [dedupFirstGo, if_pos h]
      rcases List.mem_cons.mp hx with rfl | hx'
      · exact absurd (List.elem_iff.mp h) hns
      · exact ih seen x hx' hns
    · simp only [dedupFirstGo, if_neg h]
      rcases List.mem_cons.mp hx with rfl | hx'
      · exact List.mem_cons_self _ _
      · by_cases hxa : x = a
        · subst hxa; exact List.mem_cons_self _ _
        · refine List.mem_cons_of_mem _ (ih (a :: seen) x hx' ?_)
          intro hmem
          rcases List.mem_cons.mp hmem with hh | hmem'
          · exact hxa hh
          · exact hns hmem'

theorem mem_unionColumns (data : List JObj) (r : JObj) (p : String)
    (hr : r ∈ data) (hp : p ∈ (flattenRecord r).map Prod.fst) :
    p ∈ unionColumns data := by
  apply mem_dedupFirstGo_of_mem _ [] _ ?_ (by simp)
  rw [List.mem_flatten]
  exact ⟨(flattenRecord r).map Prod.fst, List.mem_map_of_mem _ hr, hp⟩

theorem pyGet_none_of_not_mem :
    ∀ {α : Type} (l : List (String × α)) (key : String),
      key ∉ l.map Prod.fst → pyGet l key = none := by
  intro α l
  induction l with
  | nil => intro key _; rfl
  | cons a l ih =>
    intro key h
    rcases a with ⟨k, v⟩
    simp only [List.map_cons, List.mem_cons] at h
    push_neg at h
    have hne : k ≠ key := fun hh => h.1 hh.symm
    simp [pyGet, ih key h.2, hne]

theorem pyGet_zip_sanitize :
    ∀ (cols : List String) (p : String), (cols.map sanitize).Nodup → p ∈ cols →
      pyGet ((cols.map sanitize).zip cols) (sanitize p) = some p := by
  intro cols
  induction cols with
  | nil => intro p _ h; simp at h
  | cons c rest ih =>
    intro p hnd hp
    simp only [List.map_cons, List.nodup_cons] at hnd
    show pyGet ((sanitize c, c) :: (rest.map sanitize).zip rest) (sanitize p) = some p
    rcases List.mem_cons.mp hp with rfl | hp'
    · have hnone : pyGet ((rest.map sanitize).zip rest) (sanitize p) = none := by
        apply pyGet_none_of_not_mem
        rw [List.map_fst_zip _ _ (by simp)]
        exact hnd.1
      simp only [pyGet, hnone]
      simp
    · have := ih p hnd.2 hp'
      simp only [pyGet, this]

theorem nodupB_iff : ∀ l : List String, nodupB l = true ↔ l.Nodup := by
  intro l
  induction l with
  | nil => simp [nodupB]
  | cons x xs ih =>
    simp only [nodupB, Bool.and_eq_true, List.nodup_cons, ih, Bool.not_eq_eq_eq_not,
      Bool.not_true]
    constructor
    · rintro ⟨h1, h2⟩
      refine ⟨fun hmem => ?_, h2⟩
      have h1' : List.elem x xs = false := h1
      rw [List.elem_iff.mpr hmem] at h1'
      exact absurd h1' (by simp)
    · rintro ⟨h1, h2⟩
      refine ⟨?_, h2⟩
      cases hc : xs.contains x with
      | false => rfl
      | true => exact absurd (List.elem_iff.mp hc) h1

/-- One record's flat row, unflattened through the request's column mapping,
carries every original leaf value at its original segment path. -/
theorem rowOfRecord_roundtrip :
    ∀ (cols : List String) (r : JObj),
      (cols.map sanitize).Nodup →
      pairwiseIncompB (cols.map splitDots) = true →
      ((flattenRecord r).map Prod.fst).Nodup →
      (∀ p v, (p, v) ∈ flattenRecord r → p ∈ cols) →
      ∃ o, unflattenRowGo ((cols.map sanitize).zip cols) .nil (rowOfRecord cols r) = some o ∧
        ∀ p v, (p, v) ∈ flattenRecord r → getAtPath o (splitDots p) = some v := by
  intro cols r hnd hpair hfnd hsub
  have hres : (rowOfRecord cols r).map
      (fun e => resolveKey ((cols.map sanitize).zip cols) e.1) = cols.map splitDots := by
    simp only [rowOfRecord, List.map_map]
    apply List.map_congr_left
    intro p hp
    show resolveKey ((cols.map sanitize).zip cols) (sanitize p) = splitDots p
    unfold resolveKey
    rw [pyGet_zip_sanitize cols p hnd hp]
    rfl
  obtain ⟨o, ho, hcontent, _⟩ := unflattenRowGo_total ((cols.map sanitize).zip cols)
    (rowOfRecord cols r) .nil
    (fun q hno _ _ _ => by rw [nonObjAt_nil] at hno; exact absurd hno (by simp))
    (by rw [hres]; exact hpair)
  refine ⟨o, ho, ?_⟩
  intro p v hpv
  have hpcols : p ∈ cols := hsub p v hpv
  have hentry : (sanitize p, ((flattenRecord r).lookup p).getD .null) ∈ rowOfRecord cols r :=
    List.mem_map_of_mem _ hpcols
  have hval : getAtPath o (resolveKey ((cols.map sanitize).zip cols) (sanitize p)) =
      some (((flattenRecord r).lookup p).getD .null) := hcontent _ hentry
  have hkey : resolveKey ((cols.map sanitize).zip cols) (sanitize p) = splitDots p := by
    unfold resolveKey
    rw [pyGet_zip_sanitize cols p hnd hpcols]
    rfl
  rw [hkey] at hval
  have hlook : (flattenRecord r).lookup p = some v := lookup_of_mem_nodup _ p v hfnd hpv
  rw [hlook] at hval
  exact hval

theorem unflattenRows_map_of_all :
    ∀ (mapping : List (String × String)) (f : JObj → List (String × JVal))
      (P : JObj → JObj → Prop) (l : List JObj),
      (∀ r, r ∈ l → ∃ o, unflattenRowGo mapping .nil (f r) = some o ∧ P r o) →
      ∃ out, unflattenRows mapping (l.map f) = some out ∧ out.length = l.length ∧
        ∀ (i : Nat) (r o : JObj), l[i]? = some r → out[i]? = some o → P r o := by
  intro mapping f P l
  induction l with
  | nil =>
    intro _
    refine ⟨[], rfl, rfl, ?_⟩
    intro i r o h
    simp at h
  | cons r0 rest ih =>
    intro h
    obtain ⟨o0, ho0, hP0⟩ := h r0 (List.mem_cons_self _ _)
    obtain ⟨out, hout, hlen, hP⟩ := ih (fun r hr => h r (List.mem_cons_of_mem _ hr))
    refine ⟨o0 :: out, ?_, by simp [hlen], ?_⟩
    · show unflattenRows mapping (f r0 :: rest.map f) = some (o0 :: out)
      rw [unflattenRows, ho0, hout]
    · intro i r o hri hoi
      cases i with
      | zero =>
        simp only [List.getElem?_cons_zero] at hri hoi
        obtain rfl := Option.some.inj hri
        obtain rfl := Option.some.inj hoi
        exact hP0
      | succ n =>
        simp only [List.getElem?_cons_succ] at hri hoi
        exact hP n r o hri hoi

/-- Counterexample for claim C1 as stated (no precondition beyond
array-freeness): for the batch `[{"a.b": 1}]` the identity pipeline returns
`[{"a": {"b": 1}}]` — the literal dotted key is split during unflattening, so
the nesting shape of the input path is not preserved. -/
theorem c1_identity_round_trip_counterexample :
    query_json [jobjOf [("a.b", .int 1)]] "SELECT * FROM data" false identityExec =
        .ok (.nestedRows [jobjOf [("a", .obj (jobjOf [("b", .int 1)]))]]) ∧
      ("a.b", JVal.int 1) ∈ flattenRecord (jobjOf [("a.b", .int 1)]) ∧
      getAtPath (jobjOf [("a.b", .int 1)]) ["a.b"] = some (.int 1) ∧
      getAtPath (jobjOf [("a", .obj (jobjOf [("b", .int 1)]))]) ["a.b"] = none :=
  ⟨rfl, List.mem_cons_self _ _, rfl, rfl⟩

/-- Claim C1 (amended): for every nonempty batch of well-formed (unique keys),
array-free records whose keys contain no `'.'`, such that sanitization is
injective on the batch's path set and no path of the batch is a strict
segment-wise prefix of another (pairwise incomparable), the identity pipeline
(`SELECT * FROM data`, `flatten_columns = false`) succeeds and reproduces, in
the record at the same position, the original value at the original segment
path for every leaf path that existed in the input. -/
theorem c1_identity_round_trip :
    ∀ data : List JObj,
      data ≠ [] →
      wfBatch data = true →
      arrFreeBatch data = true →
      dotFreeBatch data = true →
      nodupB ((unionColumns data).map sanitize) = true →
      pairwiseIncompB ((unionColumns data).map splitDots) = true →
      ∃ out, query_json data "SELECT * FROM data" false identityExec =
          .ok (.nestedRows out) ∧
        out.length = data.length ∧
        ∀ (i : Nat) (r o : JObj), data[i]? = some r → out[i]? = some o →
          ∀ p v, (p, v) ∈ flattenRecord r → getAtPath o (splitDots p) = some v := by
  intro data hne hwf harr hdot hnd hpair
  have hnd' : ((unionColumns data).map sanitize).Nodup := (nodupB_iff _).mp hnd
  have hrows : ∀ r, r ∈ data →
      ∃ o, unflattenRowGo (((unionColumns data).map sanitize).zip (unionColumns data)) .nil
          (rowOfRecord (unionColumns data) r) = some o ∧
        ∀ p v, (p, v) ∈ flattenRecord r → getAtPath o (splitDots p) = some v := by
    intro r hr
    refine rowOfRecord_roundtrip (unionColumns data) r hnd' hpair ?_ ?_
    · exact flattenRecord_keys_nodup r ((List.all_eq_true.mp hwf) r hr)
        ((List.all_eq_true.mp hdot) r hr)
    · intro p v hpv
      exact mem_unionColumns data r p hr (List.mem_map.mpr ⟨(p, v), hpv, rfl⟩)
  obtain ⟨out, hout, hlen, hP⟩ := unflattenRows_map_of_all
    (((unionColumns data).map sanitize).zip (unionColumns data))
    (rowOfRecord (unionColumns data))
    (fun r o => ∀ p v, (p, v) ∈ flattenRecord r → getAtPath o (splitDots p) = some v)
    data hrows
  refine ⟨out, ?_, hlen, hP⟩
  have hval : validate_data_structure data = .ok () := validateItems_ok 0 data harr
  have hempty : data.isEmpty = false := by
    cases data with
    | nil => exact absurd rfl hne
    | cons a l => rfl
  have hu : unflatten_data (data.map (rowOfRecord (unionColumns data)))
      (((unionColumns data).map sanitize).zip (unionColumns data)) = some out := hout
  have hbody : queryBody data "SELECT * FROM data" false identityExec =
      .ok (.nestedRows out) := by
    unfold queryBody
    rw [if_neg (by rw [hempty]; simp)]
    rw [if_neg (by rw [show isBlankSql "SELECT * FROM data" = false from rfl]; simp)]
    simp only [hval, identityExec, hu]
    simp
  show (queryBody data "SELECT * FROM data" false identityExec).mapError handleExc = _
  rw [hbody]
  rfl

/-- Witness for C1 on the spec's two-record example batch. -/
theorem c1_identity_round_trip_witness :
    ∃ out, query_json exBatch "SELECT * FROM data" false identityExec =
        .ok (.nestedRows out) ∧
      out.length = exBatch.length ∧
      ∀ (i : Nat) (r o : JObj), exBatch[i]? = some r → out[i]? = some o →
        ∀ p v, (p, v) ∈ flattenRecord r → getAtPath o (splitDots p) = some v :=
  c1_identity_round_trip exBatch (List.cons_ne_nil _ _) rfl rfl rfl rfl rfl

/-- Claim C3: for the two-record example with query `SELECT * FROM data` and
`flatten_columns = false`, the pipeline returns
`[{"user": {"name": "Ann", "age": 30}}, {"user": {"name": "Bo", "age": null}}]`:
the missing key comes back as an explicit null and the value 30 is unchanged. -/
theorem c3_flatten_query_unflatten_scenario :
    query_json exBatch "SELECT * FROM data" false identityExec =
      .ok (.nestedRows
        [jobjOf [("user", .obj (jobjOf [("name", .str "Ann"), ("age", .int 30)]))],
         jobjOf [("user", .obj (jobjOf [("name", .str "Bo"), ("age", .null)]))]]) := rfl
